import Mathlib

/-!
# Panel Tiling Engine — shallow embedding

A shallow embedding of `src/CalculatorEngine.ts` from the
styropor-calculator repository, together with the caller-side guard of
`src/App.tsx` (the `useMemo` that invokes the engine).  JavaScript numbers
are modelled as exact rationals (`ℚ`); `Math.ceil` is `Int.ceil`.  The
engine's two nested loops (`for` over rows, `while` over column offsets) are
modelled as folds over the exact sequence of loop-variable values the source
visits; the inner `while` loop is additionally given verbatim as a
fuel-indexed recursion (`rowLoopFuel`) and proved equal to the fold, which
also establishes its termination for positive panel widths.
-/

namespace Styropor

/-- `Exclusion` (CalculatorEngine.ts lines 1-7).  The string `id` field is
presentation-only and never read by the engine; it is omitted. -/
structure Exclusion where
  x : ℚ
  y : ℚ
  width : ℚ
  height : ℚ
deriving DecidableEq, Repr

/-- `PanelConfig` (lines 9-12). -/
structure PanelConfig where
  width : ℚ
  height : ℚ
deriving DecidableEq, Repr

/-- `WallConfig` (lines 14-17). -/
structure WallConfig where
  width : ℚ
  height : ℚ
deriving DecidableEq, Repr

/-- `PlacedPanel` (lines 19-27).  The source id string `p-${r}-${xOffset}`
is modelled as the pair `(r, xOffset)`. -/
structure PlacedPanel where
  id : ℕ × ℚ
  x : ℚ
  y : ℚ
  width : ℚ
  height : ℚ
  isCut : Bool
  isOffcutReuse : Bool
deriving DecidableEq, Repr

/-- `CutPiece` (lines 29-32): an offcut in the reuse pool. -/
structure CutPiece where
  width : ℚ
  height : ℚ
deriving DecidableEq, Repr

/-- `CalculationResult` (lines 34-41). -/
structure CalculationResult where
  netArea : ℚ
  grossArea : ℚ
  theoreticalPanels : ℤ
  practicalPanels : ℕ
  placedPanels : List PlacedPanel
  wasteArea : ℚ
deriving DecidableEq, Repr

/-- The mutable locals of `calculateStyropor` (lines 48-51). -/
structure EngineState where
  placedPanels : List PlacedPanel
  offcuts : List CutPiece
  panelsUsed : ℕ
deriving DecidableEq, Repr

/-- `Math.min` on (exact-rational) JavaScript numbers. -/
def qmin (a b : ℚ) : ℚ := if a ≤ b then a else b

/-- `Math.max` on (exact-rational) JavaScript numbers. -/
def qmax (a b : ℚ) : ℚ := if a ≤ b then b else a

/-- `Math.ceil` on an exact rational, as a computable integer. -/
def qceil (q : ℚ) : ℤ := -((-q).num / ((-q).den : ℤ))

theorem qmin_eq_min (a b : ℚ) : qmin a b = min a b := (min_def a b).symm

theorem qmax_eq_max (a b : ℚ) : qmax a b = max a b := (max_def a b).symm

theorem qceil_eq_ceil (q : ℚ) : qceil q = ⌈q⌉ := by
  have h : ⌊-q⌋ = (-q).num / ((-q).den : ℤ) := Rat.floor_def
  rw [qceil, ← h, Int.floor_neg, neg_neg]

/-- The visible width of the cell at `xOffset`:
`endX - startX` with `startX = max 0 xOffset`,
`endX = min wall.width (xOffset + panel.width)` (lines 65-70). -/
def visibleWidth (wall : WallConfig) (panel : PanelConfig) (xOffset : ℚ) : ℚ :=
  qmin wall.width (xOffset + panel.width) - qmax 0 xOffset

/-- The visible height of a cell in the row starting at `yOffset`:
`endY - startY` with `startY = yOffset`,
`endY = min wall.height (yOffset + panel.height)` (lines 66-71). -/
def visibleHeight (wall : WallConfig) (panel : PanelConfig) (yOffset : ℚ) : ℚ :=
  qmin wall.height (yOffset + panel.height) - yOffset

/-- The AABB intersection test of lines 77-82 between the visible footprint
(bottom-left `(startX, startY)`, size `w × h`) and one exclusion. -/
def aabbOverlap (startX startY w h : ℚ) (exc : Exclusion) : Bool :=
  decide (startX < exc.x + exc.width) && decide (startX + w > exc.x) &&
  decide (startY < exc.y + exc.height) && decide (startY + h > exc.y)

/-- The containment test of lines 84-89: the visible footprint lies entirely
inside the exclusion. -/
def containedIn (startX startY w h : ℚ) (exc : Exclusion) : Bool :=
  decide (startX ≥ exc.x) && decide (startX + w ≤ exc.x + exc.width) &&
  decide (startY ≥ exc.y) && decide (startY + h ≤ exc.y + exc.height)

/-- Lines 100-108: `offcuts.findIndex(oc => oc.width >= w && oc.height >= h)`
followed by `offcuts.splice(index, 1)`.  Removes the first offcut (in
insertion order) fitting the visible size `w × h`, returning the remaining
pool; `none` when no offcut fits (`findIndex` returned `-1`). -/
def removeFirstFit (w h : ℚ) : List CutPiece → Option (List CutPiece)
  | [] => none
  | oc :: rest =>
    if oc.width ≥ w ∧ oc.height ≥ h then some rest
    else (removeFirstFit w h rest).map (oc :: ·)

/-- The body of the inner `while` loop (lines 63-131) for the cell of row
`r` at nominal position `(xOffset, yOffset)`. -/
def stepCell (wall : WallConfig) (panel : PanelConfig) (exclusions : List Exclusion)
    (r : ℕ) (yOffset xOffset : ℚ) (st : EngineState) : EngineState :=
  let startX := qmax 0 xOffset
  let startY := yOffset
  let endX := qmin wall.width (xOffset + panel.width)
  let endY := qmin wall.height (yOffset + panel.height)
  let widthOnWall := endX - startX
  let heightOnWall := endY - startY
  let overlapsExclusion := exclusions.any fun exc =>
    aabbOverlap startX startY widthOnWall heightOnWall exc &&
    containedIn startX startY widthOnWall heightOnWall exc
  if overlapsExclusion = false ∧ 0 < widthOnWall ∧ 0 < heightOnWall then
    let next : Bool × List CutPiece × ℕ :=
      match removeFirstFit widthOnWall heightOnWall st.offcuts with
      | some rest => (true, rest, st.panelsUsed)
      | none =>
        (false,
         if widthOnWall < panel.width then
           st.offcuts ++ [⟨panel.width - widthOnWall, panel.height⟩]
         else st.offcuts,
         st.panelsUsed + 1)
    { placedPanels := st.placedPanels ++
        [{ id := (r, xOffset), x := startX, y := startY,
           width := widthOnWall, height := heightOnWall,
           isCut := decide (widthOnWall < panel.width ∨ heightOnWall < panel.height),
           isOffcutReuse := next.1 }],
      offcuts := next.2.1,
      panelsUsed := next.2.2 }
  else st

/-- Number of iterations of the inner `while` loop (line 63) when started at
`xOffset = x0`: the least `k` with `x0 + k * panel.width ≥ wall.width`.
Faithful to the source for `panel.width > 0`; for `panel.width ≤ 0` the
source loop would not terminate (such calls are prevented by the guard in
App.tsx) and the count is defined as 0. -/
def numColsFrom (wall : WallConfig) (panel : PanelConfig) (x0 : ℚ) : ℕ :=
  if 0 < panel.width then (qceil ((wall.width - x0) / panel.width)).toNat else 0

/-- The sequence of `xOffset` values the inner `while` loop visits, starting
at `x0` and stepping by `panel.width` (line 133). -/
def cellXs (wall : WallConfig) (panel : PanelConfig) (x0 : ℚ) : List ℚ :=
  (List.range (numColsFrom wall panel x0)).map fun k : ℕ => x0 + (k : ℚ) * panel.width

/-- Line 60: the half-bond shift — odd rows start at `-(panel.width / 2)`,
even rows at `0`. -/
def rowX0 (panel : PanelConfig) (r : ℕ) : ℚ :=
  if r % 2 = 1 then -(panel.width / 2) else 0

/-- One iteration of the outer `for` loop (lines 58-137): the inner `while`
loop over the xOffsets it visits.  The accumulated `yOffset` equals
`r * panel.height` (the source adds `panel.height` once per row, line 136). -/
def stepRow (wall : WallConfig) (panel : PanelConfig) (exclusions : List Exclusion)
    (r : ℕ) (st : EngineState) : EngineState :=
  (cellXs wall panel (rowX0 panel r)).foldl
    (fun s x => stepCell wall panel exclusions r ((r : ℚ) * panel.height) x s) st

/-- Line 54: `rows = Math.ceil(wall.height / panel.height)`.  A non-positive
count means the row loop body never runs, hence `toNat`. -/
def numRows (wall : WallConfig) (panel : PanelConfig) : ℕ :=
  (qceil (wall.height / panel.height)).toNat

/-- The engine state after both loops (lines 48-137). -/
def finalState (wall : WallConfig) (panel : PanelConfig)
    (exclusions : List Exclusion) : EngineState :=
  (List.range (numRows wall panel)).foldl
    (fun st r => stepRow wall panel exclusions r st)
    { placedPanels := [], offcuts := [], panelsUsed := 0 }

/-- Line 141: `exclusions.reduce((acc, curr) => acc + curr.width * curr.height, 0)`. -/
def exclusionAreaSum (exclusions : List Exclusion) : ℚ :=
  exclusions.foldl (fun acc curr => acc + curr.width * curr.height) 0

/-- `calculateStyropor` (lines 43-157). -/
def calculateStyropor (wall : WallConfig) (panel : PanelConfig)
    (exclusions : List Exclusion) : CalculationResult :=
  let st := finalState wall panel exclusions
  let grossArea := wall.width * wall.height
  let exclArea := exclusionAreaSum exclusions
  let netArea := grossArea - exclArea
  let panelArea := panel.width * panel.height
  let actualUsedArea := (st.panelsUsed : ℚ) * panelArea
  let wasteArea := actualUsedArea - netArea
  { netArea := netArea,
    grossArea := grossArea,
    theoreticalPanels := qceil (netArea / panelArea),
    practicalPanels := st.panelsUsed,
    placedPanels := st.placedPanels,
    wasteArea := wasteArea }

/-- The caller-side guard of App.tsx lines 80-87: the engine is invoked only
when wall and panel dimensions are all positive; otherwise the memoised
result is `null` (`none`) and no output is produced. -/
def appResult (wall : WallConfig) (panel : PanelConfig)
    (exclusions : List Exclusion) : Option CalculationResult :=
  if wall.width ≤ 0 ∨ wall.height ≤ 0 ∨ panel.width ≤ 0 ∨ panel.height ≤ 0 then
    none
  else
    some (calculateStyropor wall panel exclusions)

/-- The inner `while` loop of lines 63-134 written verbatim as a fuel-indexed
recursion: `none` means the fuel ran out before the loop condition failed. -/
def rowLoopFuel (wall : WallConfig) (panel : PanelConfig)
    (exclusions : List Exclusion) (r : ℕ) (yOffset : ℚ) :
    ℕ → ℚ → EngineState → Option EngineState
  | 0, xOffset, st => if xOffset < wall.width then none else some st
  | fuel + 1, xOffset, st =>
    if xOffset < wall.width then
      rowLoopFuel wall panel exclusions r yOffset fuel (xOffset + panel.width)
        (stepCell wall panel exclusions r yOffset xOffset st)
    else some st

/-- The placed-panel record pushed at lines 122-130, covering the full
visible footprint of the cell. -/
def cellPanel (wall : WallConfig) (panel : PanelConfig) (r : ℕ) (y x : ℚ)
    (reused : Bool) : PlacedPanel :=
  { id := (r, x), x := qmax 0 x, y := y,
    width := visibleWidth wall panel x,
    height := visibleHeight wall panel y,
    isCut := decide (visibleWidth wall panel x < panel.width ∨
      visibleHeight wall panel y < panel.height),
    isOffcutReuse := reused }

/-- The `overlapsExclusion` flag of lines 74-93: set iff some exclusion both
AABB-overlaps the visible footprint and contains it entirely. -/
def containedSome (wall : WallConfig) (panel : PanelConfig)
    (excl : List Exclusion) (y x : ℚ) : Bool :=
  excl.any fun exc =>
    aabbOverlap (qmax 0 x) y (visibleWidth wall panel x) (visibleHeight wall panel y) exc &&
    containedIn (qmax 0 x) y (visibleWidth wall panel x) (visibleHeight wall panel y) exc

/-- Branch-level characterisation of `stepCell`. -/
theorem stepCell_eq (wall : WallConfig) (panel : PanelConfig)
    (excl : List Exclusion) (r : ℕ) (y x : ℚ) (st : EngineState) :
    stepCell wall panel excl r y x st =
      if containedSome wall panel excl y x = false ∧
          0 < visibleWidth wall panel x ∧ 0 < visibleHeight wall panel y then
        match removeFirstFit (visibleWidth wall panel x) (visibleHeight wall panel y)
            st.offcuts with
        | some rest =>
          { placedPanels := st.placedPanels ++ [cellPanel wall panel r y x true],
            offcuts := rest, panelsUsed := st.panelsUsed }
        | none =>
          { placedPanels := st.placedPanels ++ [cellPanel wall panel r y x false],
            offcuts :=
              if visibleWidth wall panel x < panel.width then
                st.offcuts ++ [⟨panel.width - visibleWidth wall panel x, panel.height⟩]
              else st.offcuts,
            panelsUsed := st.panelsUsed + 1 }
      else st := by
  cases h : removeFirstFit (visibleWidth wall panel x) (visibleHeight wall panel y)
      st.offcuts <;>
    (simp only [visibleWidth, visibleHeight] at h
     simp only [stepCell, containedSome, cellPanel, visibleWidth, visibleHeight, h])

/-- A skipped cell leaves the state unchanged. -/
theorem stepCell_skip (wall : WallConfig) (panel : PanelConfig)
    (excl : List Exclusion) (r : ℕ) (y x : ℚ) (st : EngineState)
    (h : ¬(containedSome wall panel excl y x = false ∧
      0 < visibleWidth wall panel x ∧ 0 < visibleHeight wall panel y)) :
    stepCell wall panel excl r y x st = st := by
  rw [stepCell_eq, if_neg h]

/-- `stepCell` only ever appends to the list of placed panels. -/
theorem stepCell_placed_prefix (wall : WallConfig) (panel : PanelConfig)
    (excl : List Exclusion) (r : ℕ) (y x : ℚ) (st : EngineState) :
    ∃ l, (stepCell wall panel excl r y x st).placedPanels = st.placedPanels ++ l := by
  rw [stepCell_eq]
  split
  · split
    · exact ⟨_, rfl⟩
    · exact ⟨_, rfl⟩
  · exact ⟨[], (List.append_nil _).symm⟩

/-- A whole inner loop only ever appends to the list of placed panels. -/
theorem foldl_stepCell_placed_prefix (wall : WallConfig) (panel : PanelConfig)
    (excl : List Exclusion) (r : ℕ) (y : ℚ) (xs : List ℚ) (st : EngineState) :
    ∃ l, (xs.foldl (fun s x => stepCell wall panel excl r y x s) st).placedPanels
      = st.placedPanels ++ l := by
  induction xs generalizing st with
  | nil => exact ⟨[], (List.append_nil _).symm⟩
  | cons a t ih =>
    obtain ⟨l2, h2⟩ := ih (stepCell wall panel excl r y a st)
    obtain ⟨l1, h1⟩ := stepCell_placed_prefix wall panel excl r y a st
    exact ⟨l1 ++ l2, by simp only [List.foldl_cons, h2, h1, List.append_assoc]⟩

/-- `exclusions.reduce` (line 141) computes the sum of the exclusion areas. -/
theorem exclusionAreaSum_eq_sum (excl : List Exclusion) :
    exclusionAreaSum excl = (excl.map fun e => e.width * e.height).sum := by
  suffices h : ∀ (l : List Exclusion) (a : ℚ),
      l.foldl (fun acc curr => acc + curr.width * curr.height) a
        = a + (l.map fun e => e.width * e.height).sum by
    simpa using h excl 0
  intro l
  induction l with
  | nil => simp
  | cons e t ih =>
    intro a
    simp [ih, add_assoc]

/-- C7: the summary fields of the result satisfy
`grossArea = wall.width * wall.height`,
`netArea = grossArea − Σ exclusion.width * exclusion.height` (summed over all
exclusions independently of overlaps),
`theoreticalPanels = ⌈netArea / (panel.width * panel.height)⌉`, and
`wasteArea = practicalPanels * panelArea − netArea` with no clamping. -/
theorem C7_summary_fields (wall : WallConfig) (panel : PanelConfig)
    (excl : List Exclusion) (hpw : 0 < panel.width) (hph : 0 < panel.height) :
    (calculateStyropor wall panel excl).grossArea = wall.width * wall.height ∧
    (calculateStyropor wall panel excl).netArea
      = wall.width * wall.height - (excl.map fun e => e.width * e.height).sum ∧
    (calculateStyropor wall panel excl).theoreticalPanels
      = ⌈(calculateStyropor wall panel excl).netArea / (panel.width * panel.height)⌉ ∧
    (calculateStyropor wall panel excl).wasteArea
      = ((calculateStyropor wall panel excl).practicalPanels : ℚ)
          * (panel.width * panel.height)
        - (calculateStyropor wall panel excl).netArea := by
  refine ⟨rfl, ?_, qceil_eq_ceil _, rfl⟩
  show wall.width * wall.height - exclusionAreaSum excl = _
  rw [exclusionAreaSum_eq_sum]

/-- C7 witness: the summary-field identities at a concrete input. -/
theorem C7_summary_fields_witness :
    0 < (100 : ℚ) ∧ 0 < (50 : ℚ) ∧
    ((calculateStyropor ⟨500, 300⟩ ⟨100, 50⟩ [⟨200, 0, 100, 210⟩]).grossArea
        = 500 * 300 ∧
      (calculateStyropor ⟨500, 300⟩ ⟨100, 50⟩ [⟨200, 0, 100, 210⟩]).netArea
        = 500 * 300
          - (([⟨200, 0, 100, 210⟩] : List Exclusion).map fun e => e.width * e.height).sum ∧
      (calculateStyropor ⟨500, 300⟩ ⟨100, 50⟩ [⟨200, 0, 100, 210⟩]).theoreticalPanels
        = ⌈(calculateStyropor ⟨500, 300⟩ ⟨100, 50⟩ [⟨200, 0, 100, 210⟩]).netArea
            / (100 * 50)⌉ ∧
      (calculateStyropor ⟨500, 300⟩ ⟨100, 50⟩ [⟨200, 0, 100, 210⟩]).wasteArea
        = ((calculateStyropor ⟨500, 300⟩ ⟨100, 50⟩ [⟨200, 0, 100, 210⟩]).practicalPanels : ℚ)
            * (100 * 50)
          - (calculateStyropor ⟨500, 300⟩ ⟨100, 50⟩ [⟨200, 0, 100, 210⟩]).netArea) :=
  ⟨by norm_num, by norm_num,
    C7_summary_fields ⟨500, 300⟩ ⟨100, 50⟩ [⟨200, 0, 100, 210⟩] (by norm_num) (by norm_num)⟩

/-- C2 counterexample: an exclusion with non-positive width (−1) is accepted:
the guarded engine call returns a complete result instead of signalling an
invalid-input error, refuting the claimed "error iff some positivity
condition is violated". -/
theorem C2_counterexample :
    (∃ e ∈ ([⟨0, 0, -1, 1⟩] : List Exclusion), e.width ≤ 0) ∧
    (appResult ⟨1, 1⟩ ⟨1, 1⟩ [⟨0, 0, -1, 1⟩]).isSome = true := by
  constructor
  · exact ⟨⟨0, 0, -1, 1⟩, by simp, by norm_num⟩
  · with_unfolding_all decide

/-- C2 amended: the composed caller guard signals the error (a `null` result,
with no partial output) exactly when a wall or panel dimension is
non-positive; exclusion dimensions are never checked, and in all other cases
a complete result is returned. -/
theorem C2_amended (wall : WallConfig) (panel : PanelConfig)
    (excl : List Exclusion) :
    (appResult wall panel excl = none ↔
      wall.width ≤ 0 ∨ wall.height ≤ 0 ∨ panel.width ≤ 0 ∨ panel.height ≤ 0) ∧
    (appResult wall panel excl = none ∨
      appResult wall panel excl = some (calculateStyropor wall panel excl)) := by
  constructor
  · unfold appResult
    split_ifs with h
    · simpa using h
    · simpa using h
  · unfold appResult
    split_ifs with h
    · exact Or.inl rfl
    · exact Or.inr rfl

/-- A footprint of positive size that is contained in an exclusion also
AABB-overlaps it, so the source's inner containment test (guarded by the
outer overlap test) fires exactly on containment. -/
theorem aabbOverlap_of_containedIn (s t w h : ℚ) (exc : Exclusion)
    (hw : 0 < w) (hh : 0 < h) (hc : containedIn s t w h exc = true) :
    aabbOverlap s t w h exc = true := by
  unfold containedIn at hc
  unfold aabbOverlap
  simp only [Bool.and_eq_true, decide_eq_true_eq, ge_iff_le, gt_iff_lt] at hc ⊢
  obtain ⟨⟨⟨h1, h2⟩, h3⟩, h4⟩ := hc
  refine ⟨⟨⟨by linarith, by linarith⟩, by linarith⟩, by linarith⟩

/-- For a cell of positive visible size, the `overlapsExclusion` flag is set
iff the visible footprint is entirely contained in some exclusion. -/
theorem containedSome_iff (wall : WallConfig) (panel : PanelConfig)
    (excl : List Exclusion) (y x : ℚ)
    (hw : 0 < visibleWidth wall panel x) (hh : 0 < visibleHeight wall panel y) :
    containedSome wall panel excl y x = true ↔
      ∃ exc ∈ excl, containedIn (qmax 0 x) y (visibleWidth wall panel x)
        (visibleHeight wall panel y) exc = true := by
  unfold containedSome
  rw [List.any_eq_true]
  constructor
  · rintro ⟨exc, hm, hb⟩
    rw [Bool.and_eq_true] at hb
    exact ⟨exc, hm, hb.2⟩
  · rintro ⟨exc, hm, hcont⟩
    refine ⟨exc, hm, ?_⟩
    rw [Bool.and_eq_true]
    exact ⟨aabbOverlap_of_containedIn _ _ _ _ _ hw hh hcont, hcont⟩

/-- C4: a cell with positive visible width and height is skipped iff its
visible footprint is entirely contained in a single exclusion zone; when it
is contained in none — in particular under mere partial overlap — a panel is
placed covering the full visible footprint (`cellPanel` carries exactly the
visible footprint). -/
theorem C4_skip_iff_contained (wall : WallConfig) (panel : PanelConfig)
    (excl : List Exclusion) (r : ℕ) (y x : ℚ) (st : EngineState)
    (hw : 0 < visibleWidth wall panel x) (hh : 0 < visibleHeight wall panel y) :
    ((stepCell wall panel excl r y x st).placedPanels = st.placedPanels ↔
      ∃ exc ∈ excl, containedIn (qmax 0 x) y (visibleWidth wall panel x)
        (visibleHeight wall panel y) exc = true) ∧
    ((¬∃ exc ∈ excl, containedIn (qmax 0 x) y (visibleWidth wall panel x)
        (visibleHeight wall panel y) exc = true) →
      ∃ reused, (stepCell wall panel excl r y x st).placedPanels
        = st.placedPanels ++ [cellPanel wall panel r y x reused]) := by
  by_cases hc : containedSome wall panel excl y x = true
  · have hiff := (containedSome_iff wall panel excl y x hw hh).mp hc
    have hstep : stepCell wall panel excl r y x st = st := by
      apply stepCell_skip
      rintro ⟨hfalse, -, -⟩
      rw [hc] at hfalse
      cases hfalse
    exact ⟨⟨fun _ => hiff, fun _ => by rw [hstep]⟩, fun hn => absurd hiff hn⟩
  · have hcf : containedSome wall panel excl y x = false := by
      simpa using hc
    have hnotex : ¬∃ exc ∈ excl, containedIn (qmax 0 x) y (visibleWidth wall panel x)
        (visibleHeight wall panel y) exc = true := by
      intro hex
      rw [(containedSome_iff wall panel excl y x hw hh).mpr hex] at hcf
      cases hcf
    have hplaced : ∃ reused, (stepCell wall panel excl r y x st).placedPanels
        = st.placedPanels ++ [cellPanel wall panel r y x reused] := by
      rw [stepCell_eq, if_pos ⟨hcf, hw, hh⟩]
      cases hr : removeFirstFit (visibleWidth wall panel x)
          (visibleHeight wall panel y) st.offcuts with
      | none => exact ⟨false, rfl⟩
      | some rest => exact ⟨true, rfl⟩
    obtain ⟨b, hb⟩ := hplaced
    refine ⟨⟨fun habs => ?_, fun hex => absurd hex hnotex⟩, fun _ => ⟨b, hb⟩⟩
    rw [hb] at habs
    simpa using congrArg List.length habs

/-- C4 witness: a cell partially overlapped by an exclusion (footprint
`[0,4]×[0,4]`, exclusion `[0,2]×[0,2]`) is still placed. -/
theorem C4_skip_iff_contained_witness :
    0 < visibleWidth ⟨10, 10⟩ ⟨4, 4⟩ 0 ∧ 0 < visibleHeight ⟨10, 10⟩ ⟨4, 4⟩ 0 ∧
    (((stepCell ⟨10, 10⟩ ⟨4, 4⟩ [⟨0, 0, 2, 2⟩] 0 0 0 ⟨[], [], 0⟩).placedPanels
        = (⟨[], [], 0⟩ : EngineState).placedPanels ↔
      ∃ exc ∈ ([⟨0, 0, 2, 2⟩] : List Exclusion),
        containedIn (qmax 0 0) 0 (visibleWidth ⟨10, 10⟩ ⟨4, 4⟩ 0)
          (visibleHeight ⟨10, 10⟩ ⟨4, 4⟩ 0) exc = true) ∧
     ((¬∃ exc ∈ ([⟨0, 0, 2, 2⟩] : List Exclusion),
        containedIn (qmax 0 0) 0 (visibleWidth ⟨10, 10⟩ ⟨4, 4⟩ 0)
          (visibleHeight ⟨10, 10⟩ ⟨4, 4⟩ 0) exc = true) →
      ∃ reused, (stepCell ⟨10, 10⟩ ⟨4, 4⟩ [⟨0, 0, 2, 2⟩] 0 0 0 ⟨[], [], 0⟩).placedPanels
        = (⟨[], [], 0⟩ : EngineState).placedPanels
          ++ [cellPanel ⟨10, 10⟩ ⟨4, 4⟩ 0 0 0 reused])) :=
  ⟨by with_unfolding_all decide, by with_unfolding_all decide,
    C4_skip_iff_contained ⟨10, 10⟩ ⟨4, 4⟩ [⟨0, 0, 2, 2⟩] 0 0 0 ⟨[], [], 0⟩
      (by with_unfolding_all decide) (by with_unfolding_all decide)⟩

/-- `findIndex`+`splice` on a pool whose first fitting offcut is `oc`:
exactly `oc` is removed, everything before and after stays. -/
theorem removeFirstFit_first (w h : ℚ) (pre post : List CutPiece) (oc : CutPiece)
    (hpre : ∀ p ∈ pre, ¬(p.width ≥ w ∧ p.height ≥ h))
    (hfit : oc.width ≥ w ∧ oc.height ≥ h) :
    removeFirstFit w h (pre ++ oc :: post) = some (pre ++ post) := by
  induction pre with
  | nil => simp [removeFirstFit, if_pos hfit]
  | cons p t ih =>
    have hp : ¬(p.width ≥ w ∧ p.height ≥ h) := hpre p (by simp)
    have ih2 := ih (fun q hq => hpre q (by simp [hq]))
    simp [List.cons_append, removeFirstFit, if_neg hp, ih2]

/-- `findIndex` returns `-1` when no offcut fits. -/
theorem removeFirstFit_none (w h : ℚ) (pool : List CutPiece)
    (hno : ∀ p ∈ pool, ¬(p.width ≥ w ∧ p.height ≥ h)) :
    removeFirstFit w h pool = none := by
  induction pool with
  | nil => rfl
  | cons p t ih =>
    have ih2 := ih (fun q hq => hno q (by simp [hq]))
    simp [removeFirstFit, if_neg (hno p (by simp)), ih2]

/-- C5: for a cell requiring placement, the pool is scanned in insertion
order; the first fitting offcut (`oc`, preceded only by non-fitting pieces)
is removed whole — nothing else enters or leaves the pool, so no remainder
of an oversized offcut is returned — the placed panel is marked
`isOffcutReuse = true`, and the new-panel counter is not incremented. -/
theorem C5_first_fit_reuse (wall : WallConfig) (panel : PanelConfig)
    (excl : List Exclusion) (r : ℕ) (y x : ℚ) (st : EngineState)
    (pre post : List CutPiece) (oc : CutPiece)
    (hw : 0 < visibleWidth wall panel x) (hh : 0 < visibleHeight wall panel y)
    (hnc : containedSome wall panel excl y x = false)
    (hpool : st.offcuts = pre ++ oc :: post)
    (hpre : ∀ p ∈ pre, ¬(p.width ≥ visibleWidth wall panel x ∧
      p.height ≥ visibleHeight wall panel y))
    (hfit : oc.width ≥ visibleWidth wall panel x ∧
      oc.height ≥ visibleHeight wall panel y) :
    (stepCell wall panel excl r y x st).offcuts = pre ++ post ∧
    (stepCell wall panel excl r y x st).panelsUsed = st.panelsUsed ∧
    (stepCell wall panel excl r y x st).placedPanels
      = st.placedPanels ++ [cellPanel wall panel r y x true] := by
  have hr : removeFirstFit (visibleWidth wall panel x) (visibleHeight wall panel y)
      st.offcuts = some (pre ++ post) := by
    rw [hpool]
    exact removeFirstFit_first _ _ _ _ _ hpre hfit
  have hstep : stepCell wall panel excl r y x st =
      { placedPanels := st.placedPanels ++ [cellPanel wall panel r y x true],
        offcuts := pre ++ post, panelsUsed := st.panelsUsed } := by
    rw [stepCell_eq, if_pos ⟨hnc, hw, hh⟩, hr]
  rw [hstep]
  exact ⟨rfl, rfl, rfl⟩

/-- C5 witness: on wall 250×50 with panel 100×50, the cell at `x = 200`
(visible 50×50) reuses the pooled offcut 50×50 left by an earlier cut. -/
theorem C5_first_fit_reuse_witness :
    0 < visibleWidth ⟨250, 50⟩ ⟨100, 50⟩ 200 ∧
    0 < visibleHeight ⟨250, 50⟩ ⟨100, 50⟩ 0 ∧
    ((stepCell ⟨250, 50⟩ ⟨100, 50⟩ [] 0 0 200 ⟨[], [⟨50, 50⟩], 2⟩).offcuts
        = [] ++ [] ∧
      (stepCell ⟨250, 50⟩ ⟨100, 50⟩ [] 0 0 200 ⟨[], [⟨50, 50⟩], 2⟩).panelsUsed
        = (⟨[], [⟨50, 50⟩], 2⟩ : EngineState).panelsUsed ∧
      (stepCell ⟨250, 50⟩ ⟨100, 50⟩ [] 0 0 200 ⟨[], [⟨50, 50⟩], 2⟩).placedPanels
        = (⟨[], [⟨50, 50⟩], 2⟩ : EngineState).placedPanels
          ++ [cellPanel ⟨250, 50⟩ ⟨100, 50⟩ 0 0 200 true]) :=
  ⟨by with_unfolding_all decide, by with_unfolding_all decide,
    C5_first_fit_reuse ⟨250, 50⟩ ⟨100, 50⟩ [] 0 0 200 ⟨[], [⟨50, 50⟩], 2⟩ [] [] ⟨50, 50⟩
      (by with_unfolding_all decide) (by with_unfolding_all decide)
      (by with_unfolding_all decide) rfl (by simp)
      (by with_unfolding_all decide)⟩

/-- C6: when no pooled offcut fits the cell, exactly one new stock panel is
consumed; an offcut `(panel.width − visibleWidth, panel.height)` is pushed
iff the visible width is strictly less than `panel.width`, so vertical
clipping alone generates no offcut. -/
theorem C6_new_panel_offcut (wall : WallConfig) (panel : PanelConfig)
    (excl : List Exclusion) (r : ℕ) (y x : ℚ) (st : EngineState)
    (hw : 0 < visibleWidth wall panel x) (hh : 0 < visibleHeight wall panel y)
    (hnc : containedSome wall panel excl y x = false)
    (hnofit : ∀ p ∈ st.offcuts, ¬(p.width ≥ visibleWidth wall panel x ∧
      p.height ≥ visibleHeight wall panel y)) :
    (stepCell wall panel excl r y x st).panelsUsed = st.panelsUsed + 1 ∧
    (visibleWidth wall panel x < panel.width →
      (stepCell wall panel excl r y x st).offcuts
        = st.offcuts ++ [⟨panel.width - visibleWidth wall panel x, panel.height⟩]) ∧
    (¬visibleWidth wall panel x < panel.width →
      (stepCell wall panel excl r y x st).offcuts = st.offcuts) ∧
    (stepCell wall panel excl r y x st).placedPanels
      = st.placedPanels ++ [cellPanel wall panel r y x false] := by
  have hr : removeFirstFit (visibleWidth wall panel x) (visibleHeight wall panel y)
      st.offcuts = none := removeFirstFit_none _ _ _ hnofit
  by_cases hlt : visibleWidth wall panel x < panel.width
  · have hstep : stepCell wall panel excl r y x st =
        { placedPanels := st.placedPanels ++ [cellPanel wall panel r y x false],
          offcuts := st.offcuts ++ [⟨panel.width - visibleWidth wall panel x, panel.height⟩],
          panelsUsed := st.panelsUsed + 1 } := by
      rw [stepCell_eq, if_pos ⟨hnc, hw, hh⟩, hr]
      simp only [if_pos hlt]
    rw [hstep]
    exact ⟨rfl, fun _ => rfl, fun hn => absurd hlt hn, rfl⟩
  · have hstep : stepCell wall panel excl r y x st =
        { placedPanels := st.placedPanels ++ [cellPanel wall panel r y x false],
          offcuts := st.offcuts, panelsUsed := st.panelsUsed + 1 } := by
      rw [stepCell_eq, if_pos ⟨hnc, hw, hh⟩, hr]
      simp only [if_neg hlt]
    rw [hstep]
    exact ⟨rfl, fun hl => absurd hl hlt, fun _ => rfl, rfl⟩

/-- C6 witness: the clipped last cell of a 250-wide wall consumes a new
panel and pushes the horizontal remainder (50, 50); and a vertically
clipped full-width cell (wall 100×80, cell row 1) pushes nothing. -/
theorem C6_new_panel_offcut_witness :
    (0 < visibleWidth ⟨250, 50⟩ ⟨100, 50⟩ 200 ∧
      0 < visibleHeight ⟨250, 50⟩ ⟨100, 50⟩ 0 ∧
      (stepCell ⟨250, 50⟩ ⟨100, 50⟩ [] 0 0 200 ⟨[], [], 2⟩).panelsUsed = 2 + 1 ∧
      (stepCell ⟨250, 50⟩ ⟨100, 50⟩ [] 0 0 200 ⟨[], [], 2⟩).offcuts
        = [] ++ [⟨100 - visibleWidth ⟨250, 50⟩ ⟨100, 50⟩ 200, 50⟩]) ∧
    (0 < visibleWidth ⟨100, 80⟩ ⟨100, 50⟩ 0 ∧
      0 < visibleHeight ⟨100, 80⟩ ⟨100, 50⟩ 50 ∧
      (stepCell ⟨100, 80⟩ ⟨100, 50⟩ [] 1 50 0 ⟨[], [], 1⟩).offcuts = []) := by
  constructor
  · refine ⟨by with_unfolding_all decide, by with_unfolding_all decide, ?_, ?_⟩
    · exact (C6_new_panel_offcut ⟨250, 50⟩ ⟨100, 50⟩ [] 0 0 200 ⟨[], [], 2⟩
        (by with_unfolding_all decide) (by with_unfolding_all decide)
        (by with_unfolding_all decide) (by simp)).1
    · exact (C6_new_panel_offcut ⟨250, 50⟩ ⟨100, 50⟩ [] 0 0 200 ⟨[], [], 2⟩
        (by with_unfolding_all decide) (by with_unfolding_all decide)
        (by with_unfolding_all decide) (by simp)).2.1
        (by with_unfolding_all decide)
  · refine ⟨by with_unfolding_all decide, by with_unfolding_all decide, ?_⟩
    exact (C6_new_panel_offcut ⟨100, 80⟩ ⟨100, 50⟩ [] 1 50 0 ⟨[], [], 1⟩
      (by with_unfolding_all decide) (by with_unfolding_all decide)
      (by with_unfolding_all decide) (by simp)).2.2.1
      (by with_unfolding_all decide)

/-- Every offcut ever pooled is a vertical strip of a stock panel: full
panel height, width strictly between 0 and the panel width. -/
def poolInv (panel : PanelConfig) (pool : List CutPiece) : Prop :=
  ∀ oc ∈ pool, oc.height = panel.height ∧ 0 < oc.width ∧ oc.width < panel.width

/-- Removing an offcut from the pool only discards elements. -/
theorem removeFirstFit_subset (w h : ℚ) : ∀ (l l' : List CutPiece),
    removeFirstFit w h l = some l' → ∀ p ∈ l', p ∈ l := by
  intro l
  induction l with
  | nil => intro l' hl'; simp [removeFirstFit] at hl'
  | cons oc t ih =>
    intro l' hl'
    by_cases hfit : oc.width ≥ w ∧ oc.height ≥ h
    · rw [removeFirstFit, if_pos hfit] at hl'
      obtain rfl := Option.some_injective _ hl'
      intro p hp
      exact List.mem_cons_of_mem _ hp
    · rw [removeFirstFit, if_neg hfit] at hl'
      obtain ⟨t', ht', rfl⟩ := Option.map_eq_some'.mp hl'
      intro p hp
      rcases List.mem_cons.mp hp with rfl | hp'
      · exact List.mem_cons_self _ _
      · exact List.mem_cons_of_mem _ (ih t' ht' p hp')

/-- One cell step preserves the pool invariant. -/
theorem stepCell_poolInv (wall : WallConfig) (panel : PanelConfig)
    (excl : List Exclusion) (r : ℕ) (y x : ℚ) (st : EngineState)
    (hinv : poolInv panel st.offcuts) :
    poolInv panel (stepCell wall panel excl r y x st).offcuts := by
  rw [stepCell_eq]
  split
  case isTrue hcond =>
    cases hr : removeFirstFit (visibleWidth wall panel x) (visibleHeight wall panel y)
        st.offcuts with
    | some rest =>
      show poolInv panel rest
      intro oc hoc
      exact hinv oc (removeFirstFit_subset _ _ _ _ hr oc hoc)
    | none =>
      show poolInv panel
        (if visibleWidth wall panel x < panel.width then
          st.offcuts ++ [⟨panel.width - visibleWidth wall panel x, panel.height⟩]
        else st.offcuts)
      split_ifs with hlt
      · intro oc hoc
        rcases List.mem_append.mp hoc with hmem | hmem
        · exact hinv oc hmem
        · have hoc2 : oc = ⟨panel.width - visibleWidth wall panel x, panel.height⟩ := by
            simpa using hmem
          subst hoc2
          refine ⟨rfl, ?_, ?_⟩
          · show 0 < panel.width - visibleWidth wall panel x
            linarith
          · show panel.width - visibleWidth wall panel x < panel.width
            have := hcond.2.1
            linarith
      · exact hinv
  case isFalse hcond => exact hinv

/-- A run over any sequence of cells, started from the empty pool, keeps the
pool invariant at every point. -/
theorem run_poolInv (wall : WallConfig) (panel : PanelConfig)
    (excl : List Exclusion) (cells : List (ℕ × ℚ × ℚ)) :
    poolInv panel ((cells.foldl
      (fun s c => stepCell wall panel excl c.1 c.2.1 c.2.2 s)
      ⟨[], [], 0⟩).offcuts) := by
  suffices h : ∀ st, poolInv panel st.offcuts →
      poolInv panel ((cells.foldl
        (fun s c => stepCell wall panel excl c.1 c.2.1 c.2.2 s) st).offcuts) by
    exact h ⟨[], [], 0⟩ (fun oc hoc => by simp at hoc)
  induction cells with
  | nil => exact fun st h => h
  | cons c t ih =>
    intro st hst
    exact ih _ (stepCell_poolInv wall panel excl c.1 c.2.1 c.2.2 st hst)

/-- C10: during any run (every intermediate state is a fold of `stepCell`
over some cell sequence starting from the empty pool) each pooled offcut
has height exactly `panel.height` and width strictly between 0 and
`panel.width`; since every cell's visible height is at most `panel.height`,
the height test of the reuse search is automatically satisfied and reuse is
decided by the width comparison alone. -/
theorem C10_pool_invariant (wall : WallConfig) (panel : PanelConfig)
    (excl : List Exclusion) (hpw : 0 < panel.width) (hph : 0 < panel.height) :
    (∀ (r : ℕ) (y x : ℚ) (st : EngineState), poolInv panel st.offcuts →
      poolInv panel (stepCell wall panel excl r y x st).offcuts) ∧
    (∀ cells : List (ℕ × ℚ × ℚ),
      poolInv panel ((cells.foldl
        (fun s c => stepCell wall panel excl c.1 c.2.1 c.2.2 s)
        ⟨[], [], 0⟩).offcuts)) ∧
    (∀ pool, poolInv panel pool → ∀ oc ∈ pool, ∀ y x : ℚ,
      ((oc.width ≥ visibleWidth wall panel x ∧
        oc.height ≥ visibleHeight wall panel y)
        ↔ oc.width ≥ visibleWidth wall panel x)) := by
  refine ⟨fun r y x st => stepCell_poolInv wall panel excl r y x st,
    run_poolInv wall panel excl, ?_⟩
  intro pool hpool oc hoc y x
  obtain ⟨hhgt, -, -⟩ := hpool oc hoc
  constructor
  · exact fun hb => hb.1
  · intro hwd
    refine ⟨hwd, ?_⟩
    rw [hhgt]
    show visibleHeight wall panel y ≤ panel.height
    rw [visibleHeight, qmin_eq_min]
    have := min_le_right wall.height (y + panel.height)
    linarith

/-- C10 witness: after the clipped cell at `x = 200` on a 250-wide wall the
pool holds the strip 50×50, which satisfies the invariant, and its reuse
test for any later cell reduces to the width comparison. -/
theorem C10_pool_invariant_witness :
    0 < (100 : ℚ) ∧ 0 < (50 : ℚ) ∧
    poolInv ⟨100, 50⟩ (([((0 : ℕ), (0 : ℚ), (200 : ℚ))].foldl
      (fun s c => stepCell ⟨250, 50⟩ ⟨100, 50⟩ [] c.1 c.2.1 c.2.2 s)
      ⟨[], [], 0⟩).offcuts) :=
  ⟨by norm_num, by norm_num,
    (C10_pool_invariant ⟨250, 50⟩ ⟨100, 50⟩ [] (by norm_num) (by norm_num)).2.1
      [((0 : ℕ), (0 : ℚ), (200 : ℚ))]⟩

/-- A placed panel's footprint lies inside the wall rectangle and has
positive size. -/
def inWall (wall : WallConfig) (p : PlacedPanel) : Prop :=
  0 ≤ p.x ∧ 0 ≤ p.y ∧ p.x + p.width ≤ wall.width ∧ p.y + p.height ≤ wall.height ∧
  0 < p.width ∧ 0 < p.height

/-- The record built for a placed cell is in-wall whenever its visible
footprint is positive and the row base is non-negative. -/
theorem inWall_cellPanel (wall : WallConfig) (panel : PanelConfig)
    (r : ℕ) (y x : ℚ) (b : Bool) (hy : 0 ≤ y)
    (hw : 0 < visibleWidth wall panel x) (hh : 0 < visibleHeight wall panel y) :
    inWall wall (cellPanel wall panel r y x b) := by
  have hxw : qmax 0 x + visibleWidth wall panel x = qmin wall.width (x + panel.width) := by
    rw [visibleWidth]; ring
  have hyh : y + visibleHeight wall panel y = qmin wall.height (y + panel.height) := by
    rw [visibleHeight]; ring
  have h1 : qmin wall.width (x + panel.width) ≤ wall.width := by
    rw [qmin_eq_min]; exact min_le_left _ _
  have h2 : qmin wall.height (y + panel.height) ≤ wall.height := by
    rw [qmin_eq_min]; exact min_le_left _ _
  have h3 : (0 : ℚ) ≤ qmax 0 x := by
    rw [qmax_eq_max]; exact le_max_left _ _
  exact ⟨h3, hy, by rw [cellPanel]; simpa [hxw] using h1,
    by rw [cellPanel]; simpa [hyh] using h2, hw, hh⟩

/-- One cell step preserves the in-wall invariant of the placed list. -/
theorem stepCell_inWall (wall : WallConfig) (panel : PanelConfig)
    (excl : List Exclusion) (r : ℕ) (y x : ℚ) (st : EngineState) (hy : 0 ≤ y)
    (hall : ∀ p ∈ st.placedPanels, inWall wall p) :
    ∀ p ∈ (stepCell wall panel excl r y x st).placedPanels, inWall wall p := by
  rw [stepCell_eq]
  split
  case isTrue hcond =>
    have hnew : ∀ b : Bool, ∀ p ∈ st.placedPanels ++ [cellPanel wall panel r y x b],
        inWall wall p := by
      intro b p hp
      rcases List.mem_append.mp hp with hmem | hmem
      · exact hall p hmem
      · have hp2 : p = cellPanel wall panel r y x b := by simpa using hmem
        subst hp2
        exact inWall_cellPanel wall panel r y x b hy hcond.2.1 hcond.2.2
    cases hr : removeFirstFit (visibleWidth wall panel x) (visibleHeight wall panel y)
        st.offcuts with
    | some rest => exact hnew true
    | none => exact hnew false
  case isFalse hcond => exact hall

/-- A whole inner loop preserves the in-wall invariant. -/
theorem foldl_stepCell_inWall (wall : WallConfig) (panel : PanelConfig)
    (excl : List Exclusion) (r : ℕ) (y : ℚ) (hy : 0 ≤ y) (xs : List ℚ) :
    ∀ st : EngineState, (∀ p ∈ st.placedPanels, inWall wall p) →
      ∀ p ∈ (xs.foldl (fun s x => stepCell wall panel excl r y x s) st).placedPanels,
        inWall wall p := by
  induction xs with
  | nil => exact fun st h => h
  | cons a t ih =>
    intro st hst
    exact ih _ (stepCell_inWall wall panel excl r y a st hy hst)

/-- C8: for positive wall and panel dimensions (any exclusions), every
placed panel lies within `[0, wall.width] × [0, wall.height]` and has
positive width and height. -/
theorem C8_panels_within_wall (wall : WallConfig) (panel : PanelConfig)
    (excl : List Exclusion) (hW : 0 < wall.width) (hH : 0 < wall.height)
    (hpw : 0 < panel.width) (hph : 0 < panel.height) :
    ∀ p ∈ (calculateStyropor wall panel excl).placedPanels, inWall wall p := by
  show ∀ p ∈ (finalState wall panel excl).placedPanels, inWall wall p
  rw [finalState]
  have h : ∀ (l : List ℕ) (st : EngineState),
      (∀ p ∈ st.placedPanels, inWall wall p) →
      ∀ p ∈ (l.foldl (fun st r => stepRow wall panel excl r st) st).placedPanels,
        inWall wall p := by
    intro l
    induction l with
    | nil => exact fun st h => h
    | cons a t ih =>
      intro st hst
      refine ih _ ?_
      simp only [stepRow]
      exact foldl_stepCell_inWall wall panel excl a ((a : ℚ) * panel.height)
        (mul_nonneg (Nat.cast_nonneg a) hph.le) _ st hst
  exact h _ _ (fun p hp => by simp at hp)

/-- C8 witness: the in-wall invariant at a concrete input with an exclusion. -/
theorem C8_panels_within_wall_witness :
    0 < (500 : ℚ) ∧ 0 < (300 : ℚ) ∧ 0 < (100 : ℚ) ∧ 0 < (50 : ℚ) ∧
    ∀ p ∈ (calculateStyropor ⟨500, 300⟩ ⟨100, 50⟩ [⟨200, 0, 100, 210⟩]).placedPanels,
      inWall ⟨500, 300⟩ p :=
  ⟨by norm_num, by norm_num, by norm_num, by norm_num,
    C8_panels_within_wall ⟨500, 300⟩ ⟨100, 50⟩ [⟨200, 0, 100, 210⟩]
      (by norm_num) (by norm_num) (by norm_num) (by norm_num)⟩

/-- If the loop condition already fails, the `while` loop runs zero times. -/
theorem numColsFrom_eq_zero (wall : WallConfig) (panel : PanelConfig) (x0 : ℚ)
    (hpw : 0 < panel.width) (hx : ¬x0 < wall.width) :
    numColsFrom wall panel x0 = 0 := by
  rw [numColsFrom, if_pos hpw, qceil_eq_ceil]
  have hq : (wall.width - x0) / panel.width ≤ 0 :=
    div_nonpos_iff.mpr (Or.inr ⟨by linarith [le_of_not_lt hx], hpw.le⟩)
  have hc : (⌈(wall.width - x0) / panel.width⌉ : ℤ) ≤ 0 :=
    Int.ceil_le.mpr (by exact_mod_cast hq)
  exact Int.toNat_of_nonpos hc

/-- One `while` iteration peels one column off the iteration count. -/
theorem numColsFrom_succ (wall : WallConfig) (panel : PanelConfig) (x0 : ℚ)
    (hpw : 0 < panel.width) (hx : x0 < wall.width) :
    numColsFrom wall panel x0 = numColsFrom wall panel (x0 + panel.width) + 1 := by
  rw [numColsFrom, numColsFrom, if_pos hpw, if_pos hpw, qceil_eq_ceil, qceil_eq_ceil]
  have hne : panel.width ≠ 0 := ne_of_gt hpw
  have hstep : (wall.width - (x0 + panel.width)) / panel.width
      = (wall.width - x0) / panel.width - 1 := by
    field_simp
    ring
  rw [hstep, Int.ceil_sub_one]
  have hqpos : 0 < (wall.width - x0) / panel.width :=
    div_pos (by linarith) hpw
  have hcpos : (0 : ℤ) < ⌈(wall.width - x0) / panel.width⌉ := Int.ceil_pos.mpr hqpos
  omega

/-- The `while` loop visits no offsets when the condition fails at entry. -/
theorem cellXs_nil (wall : WallConfig) (panel : PanelConfig) (x0 : ℚ)
    (hpw : 0 < panel.width) (hx : ¬x0 < wall.width) :
    cellXs wall panel x0 = [] := by
  simp [cellXs, numColsFrom_eq_zero wall panel x0 hpw hx]

/-- The `while` loop visits `x0` and then continues from `x0 + panel.width`. -/
theorem cellXs_cons (wall : WallConfig) (panel : PanelConfig) (x0 : ℚ)
    (hpw : 0 < panel.width) (hx : x0 < wall.width) :
    cellXs wall panel x0 = x0 :: cellXs wall panel (x0 + panel.width) := by
  have key : (List.range (numColsFrom wall panel (x0 + panel.width) + 1)).map
      (fun k : ℕ => x0 + (k : ℚ) * panel.width)
      = x0 :: (List.range (numColsFrom wall panel (x0 + panel.width))).map
          (fun k : ℕ => (x0 + panel.width) + (k : ℚ) * panel.width) := by
    rw [List.range_succ_eq_map, List.map_cons, List.map_map]
    have hfun : ((fun k : ℕ => x0 + (k : ℚ) * panel.width) ∘ Nat.succ)
        = fun k : ℕ => (x0 + panel.width) + (k : ℚ) * panel.width := by
      funext k
      simp only [Function.comp_apply]
      push_cast
      ring
    rw [hfun]
    norm_num
  rw [cellXs, cellXs, numColsFrom_succ wall panel x0 hpw hx, key]

/-- The fuel-indexed verbatim `while` loop, given exactly `numColsFrom` fuel,
terminates and computes the same state as the fold over `cellXs`. -/
theorem rowLoopFuel_eq (wall : WallConfig) (panel : PanelConfig)
    (excl : List Exclusion) (r : ℕ) (y : ℚ) (hpw : 0 < panel.width) :
    ∀ (n : ℕ) (x0 : ℚ) (st : EngineState), numColsFrom wall panel x0 = n →
      rowLoopFuel wall panel excl r y n x0 st
        = some ((cellXs wall panel x0).foldl
            (fun s x => stepCell wall panel excl r y x s) st) := by
  intro n
  induction n with
  | zero =>
    intro x0 st h0
    have hx : ¬x0 < wall.width := by
      intro hx
      rw [numColsFrom_succ wall panel x0 hpw hx] at h0
      exact Nat.succ_ne_zero _ h0
    rw [rowLoopFuel, if_neg hx, cellXs_nil wall panel x0 hpw hx]
    rfl
  | succ n ih =>
    intro x0 st h0
    have hx : x0 < wall.width := by
      by_contra hx
      rw [numColsFrom_eq_zero wall panel x0 hpw hx] at h0
      exact Nat.succ_ne_zero n h0.symm
    rw [rowLoopFuel, if_pos hx, cellXs_cons wall panel x0 hpw hx, List.foldl_cons]
    refine ih (x0 + panel.width) _ ?_
    have := numColsFrom_succ wall panel x0 hpw hx
    omega

/-- C9: the engine terminates — the row count is `⌈wall.height/panel.height⌉`
and each row's `while` loop over column offsets terminates after exactly
`numColsFrom` iterations (`xOffset` grows by `panel.width > 0` each time),
computing the row fold. -/
theorem C9_terminates (wall : WallConfig) (panel : PanelConfig)
    (excl : List Exclusion) (hW : 0 < wall.width) (hH : 0 < wall.height)
    (hpw : 0 < panel.width) (hph : 0 < panel.height) :
    ((numRows wall panel : ℤ) = ⌈wall.height / panel.height⌉) ∧
    ∀ (r : ℕ) (st : EngineState),
      rowLoopFuel wall panel excl r ((r : ℚ) * panel.height)
        (numColsFrom wall panel (rowX0 panel r)) (rowX0 panel r) st
      = some (stepRow wall panel excl r st) := by
  constructor
  · rw [numRows, qceil_eq_ceil]
    have hpos : 0 < wall.height / panel.height := div_pos hH hph
    exact Int.toNat_of_nonneg (Int.ceil_pos.mpr hpos).le
  · intro r st
    rw [stepRow]
    exact rowLoopFuel_eq wall panel excl r _ hpw _ _ st rfl

/-- C9 witness: termination at a concrete input, including an odd
(half-bond-shifted) row. -/
theorem C9_terminates_witness :
    0 < (100 : ℚ) ∧ 0 < (50 : ℚ) ∧
    ((numRows ⟨100, 100⟩ ⟨100, 50⟩ : ℤ) = ⌈(100 : ℚ) / 50⌉ ∧
      rowLoopFuel ⟨100, 100⟩ ⟨100, 50⟩ [] 1 (((1 : ℕ) : ℚ) * 50)
        (numColsFrom ⟨100, 100⟩ ⟨100, 50⟩ (rowX0 ⟨100, 50⟩ 1)) (rowX0 ⟨100, 50⟩ 1)
        ⟨[], [], 0⟩
      = some (stepRow ⟨100, 100⟩ ⟨100, 50⟩ [] 1 ⟨[], [], 0⟩)) :=
  ⟨by norm_num, by norm_num,
    (C9_terminates ⟨100, 100⟩ ⟨100, 50⟩ [] (by norm_num) (by norm_num)
      (by norm_num) (by norm_num)).1,
    (C9_terminates ⟨100, 100⟩ ⟨100, 50⟩ [] (by norm_num) (by norm_num)
      (by norm_num) (by norm_num)).2 1 ⟨[], [], 0⟩⟩

/-- C3 counterexample: on a 100×100 wall with 100×50 panels and no
exclusions, the leading half-offset cell of odd course 1 (nominal
`xOffset = -50`) has visible width 50 > 0; the run places a panel for it at
`(0, 50)` of size 50×50, and processing that cell on an empty pool consumes
a stock panel and pushes the offcut (50, 50).  This refutes "zero or
negative visible width / skipped entirely / no stock panel / no offcut". -/
theorem C3_counterexample :
    0 < visibleWidth ⟨100, 100⟩ ⟨100, 50⟩ (rowX0 ⟨100, 50⟩ 1) ∧
    ({ id := ((1 : ℕ), (-50 : ℚ)), x := 0, y := 50, width := 50, height := 50, isCut := true, isOffcutReuse := false } : PlacedPanel)
      ∈ (calculateStyropor ⟨100, 100⟩ ⟨100, 50⟩ []).placedPanels ∧
    (stepCell ⟨100, 100⟩ ⟨100, 50⟩ [] 1 50 (rowX0 ⟨100, 50⟩ 1) ⟨[], [], 2⟩).panelsUsed = 3 ∧
    (stepCell ⟨100, 100⟩ ⟨100, 50⟩ [] 1 50 (rowX0 ⟨100, 50⟩ 1) ⟨[], [], 2⟩).offcuts = [⟨50, 50⟩] := by
  refine ⟨?_, ?_, ?_, ?_⟩ <;> with_unfolding_all decide

/-- C3 amended: for every odd-indexed course, the leading half-offset cell
(nominal x `-panel.width/2`) is clipped at the wall's left edge: its visible
width is `min(wall.width, panel.width/2)`, positive whenever the wall and
panel dimensions are positive, so (with no exclusions, for a course with
positive visible height) it is placed as a panel at `x = 0` — it is not
skipped. -/
theorem C3_amended (wall : WallConfig) (panel : PanelConfig) (r : ℕ)
    (st : EngineState) (hW : 0 < wall.width) (hpw : 0 < panel.width)
    (hodd : r % 2 = 1)
    (hy : 0 < visibleHeight wall panel ((r : ℚ) * panel.height)) :
    visibleWidth wall panel (rowX0 panel r) = qmin wall.width (panel.width / 2) ∧
    0 < visibleWidth wall panel (rowX0 panel r) ∧
    qmax 0 (rowX0 panel r) = 0 ∧
    ∃ (reused : Bool) (rest : List PlacedPanel),
      (stepRow wall panel [] r st).placedPanels
        = st.placedPanels
          ++ (cellPanel wall panel r ((r : ℚ) * panel.height) (rowX0 panel r) reused
              :: rest) := by
  have hx0 : rowX0 panel r = -(panel.width / 2) := by rw [rowX0, if_pos hodd]
  have hmax : qmax 0 (rowX0 panel r) = 0 := by
    rw [hx0, qmax_eq_max]
    exact max_eq_left (by linarith)
  have hvw : visibleWidth wall panel (rowX0 panel r)
      = qmin wall.width (panel.width / 2) := by
    rw [visibleWidth]
    rw [show rowX0 panel r + panel.width = panel.width / 2 by rw [hx0]; ring]
    rw [hmax, sub_zero]
  have hpos : 0 < visibleWidth wall panel (rowX0 panel r) := by
    rw [hvw, qmin_eq_min]
    exact lt_min hW (by linarith)
  refine ⟨hvw, hpos, hmax, ?_⟩
  rw [stepRow, cellXs_cons wall panel _ hpw (by rw [hx0]; linarith), List.foldl_cons]
  have hcond : containedSome wall panel []
      ((r : ℚ) * panel.height) (rowX0 panel r) = false := rfl
  cases hr : removeFirstFit (visibleWidth wall panel (rowX0 panel r))
      (visibleHeight wall panel ((r : ℚ) * panel.height)) st.offcuts with
  | some rest2 =>
    have hstep : stepCell wall panel [] r ((r : ℚ) * panel.height) (rowX0 panel r) st
        = { placedPanels := st.placedPanels
              ++ [cellPanel wall panel r ((r : ℚ) * panel.height) (rowX0 panel r) true],
            offcuts := rest2, panelsUsed := st.panelsUsed } := by
      rw [stepCell_eq, if_pos ⟨hcond, hpos, hy⟩, hr]
    obtain ⟨l, hl⟩ := foldl_stepCell_placed_prefix wall panel [] r
      ((r : ℚ) * panel.height) (cellXs wall panel (rowX0 panel r + panel.width))
      (stepCell wall panel [] r ((r : ℚ) * panel.height) (rowX0 panel r) st)
    refine ⟨true, l, ?_⟩
    rw [hl, hstep]
    simp
  | none =>
    have hstep : stepCell wall panel [] r ((r : ℚ) * panel.height) (rowX0 panel r) st
        = { placedPanels := st.placedPanels
              ++ [cellPanel wall panel r ((r : ℚ) * panel.height) (rowX0 panel r) false],
            offcuts :=
              if visibleWidth wall panel (rowX0 panel r) < panel.width then
                st.offcuts
                  ++ [⟨panel.width - visibleWidth wall panel (rowX0 panel r), panel.height⟩]
              else st.offcuts,
            panelsUsed := st.panelsUsed + 1 } := by
      rw [stepCell_eq, if_pos ⟨hcond, hpos, hy⟩, hr]
    obtain ⟨l, hl⟩ := foldl_stepCell_placed_prefix wall panel [] r
      ((r : ℚ) * panel.height) (cellXs wall panel (rowX0 panel r + panel.width))
      (stepCell wall panel [] r ((r : ℚ) * panel.height) (rowX0 panel r) st)
    refine ⟨false, l, ?_⟩
    rw [hl, hstep]
    simp

/-- C3 amended, witness: course 1 of a 100×100 wall with 100×50 panels. -/
theorem C3_amended_witness :
    0 < (100 : ℚ) ∧ (1 : ℕ) % 2 = 1 ∧
    0 < visibleHeight ⟨100, 100⟩ ⟨100, 50⟩ (((1 : ℕ) : ℚ) * 50) ∧
    (visibleWidth ⟨100, 100⟩ ⟨100, 50⟩ (rowX0 ⟨100, 50⟩ 1)
        = qmin 100 ((100 : ℚ) / 2) ∧
      0 < visibleWidth ⟨100, 100⟩ ⟨100, 50⟩ (rowX0 ⟨100, 50⟩ 1) ∧
      qmax 0 (rowX0 ⟨100, 50⟩ 1) = 0 ∧
      ∃ (reused : Bool) (rest : List PlacedPanel),
        (stepRow ⟨100, 100⟩ ⟨100, 50⟩ [] 1 ⟨[], [], 0⟩).placedPanels
          = (⟨[], [], 0⟩ : EngineState).placedPanels
            ++ (cellPanel ⟨100, 100⟩ ⟨100, 50⟩ 1 (((1 : ℕ) : ℚ) * 50)
                (rowX0 ⟨100, 50⟩ 1) reused :: rest)) :=
  ⟨by norm_num, by norm_num, by with_unfolding_all decide,
    C3_amended ⟨100, 100⟩ ⟨100, 50⟩ 1 ⟨[], [], 0⟩ (by norm_num) (by norm_num)
      (by norm_num) (by with_unfolding_all decide)⟩

/-- The half-open footprint `[x, x+width) × [y, y+height)` of a placed panel
contains the point `(a, b)`. -/
def coversPoint (p : PlacedPanel) (a b : ℚ) : Prop :=
  p.x ≤ a ∧ a < p.x + p.width ∧ p.y ≤ b ∧ b < p.y + p.height

/-- The geometry (footprint) of a placed panel. -/
def panelRect (p : PlacedPanel) : ℚ × ℚ × ℚ × ℚ := (p.x, p.y, p.width, p.height)

/-- The visible footprint of the cell at `(xOffset, yOffset)`. -/
def cellRect (wall : WallConfig) (panel : PanelConfig) (y x : ℚ) : ℚ × ℚ × ℚ × ℚ :=
  (qmax 0 x, y, visibleWidth wall panel x, visibleHeight wall panel y)

/-- A footprint quadruple `(x, y, w, h)` contains the point `(a, b)`. -/
def rectCovers (q : ℚ × ℚ × ℚ × ℚ) (a b : ℚ) : Prop :=
  q.1 ≤ a ∧ a < q.1 + q.2.2.1 ∧ q.2.1 ≤ b ∧ b < q.2.1 + q.2.2.2

theorem coversPoint_iff_rect (p : PlacedPanel) (a b : ℚ) :
    coversPoint p a b ↔ rectCovers (panelRect p) a b := Iff.rfl

/-- The row starting offsets are within `[-panel.width/2, 0]`. -/
theorem rowX0_bounds (panel : PanelConfig) (r : ℕ) (hpw : 0 < panel.width) :
    -(panel.width / 2) ≤ rowX0 panel r ∧ rowX0 panel r ≤ 0 := by
  rw [rowX0]
  split_ifs <;> constructor <;> linarith

/-- Every offset the `while` loop visits satisfies `x0 ≤ x < wall.width`. -/
theorem mem_cellXs (wall : WallConfig) (panel : PanelConfig) (x0 x : ℚ)
    (hpw : 0 < panel.width) (hx : x ∈ cellXs wall panel x0) :
    x0 ≤ x ∧ x < wall.width := by
  rw [cellXs] at hx
  obtain ⟨k, hk, rfl⟩ := List.mem_map.mp hx
  rw [List.mem_range, numColsFrom, if_pos hpw] at hk
  constructor
  · have hnn : 0 ≤ (k : ℚ) * panel.width :=
      mul_nonneg (Nat.cast_nonneg k) hpw.le
    linarith
  · have hk2 : (k : ℤ) < qceil ((wall.width - x0) / panel.width) := Int.lt_toNat.mp hk
    rw [qceil_eq_ceil] at hk2
    have hk3 : ((k : ℤ) : ℚ) < (wall.width - x0) / panel.width := Int.lt_ceil.mp hk2
    have hk4 : (k : ℚ) * panel.width < wall.width - x0 := by
      have := (lt_div_iff hpw).mp (by exact_mod_cast hk3)
      linarith
    linarith

/-- A visited cell whose offset is at least `-panel.width/2` has positive
visible width. -/
theorem visibleWidth_pos_of_cell (wall : WallConfig) (panel : PanelConfig) (x : ℚ)
    (hW : 0 < wall.width) (hpw : 0 < panel.width)
    (hlow : -(panel.width / 2) ≤ x) (hhi : x < wall.width) :
    0 < visibleWidth wall panel x := by
  rw [visibleWidth, qmin_eq_min, qmax_eq_max, sub_pos]
  exact max_lt_iff.mpr ⟨lt_min hW (by linarith), lt_min hhi (by linarith)⟩

/-- Rows strictly below `numRows` have positive visible height. -/
theorem visibleHeight_pos_of_row (wall : WallConfig) (panel : PanelConfig) (r : ℕ)
    (hph : 0 < panel.height) (hr : r < numRows wall panel) :
    0 < visibleHeight wall panel ((r : ℚ) * panel.height) := by
  rw [visibleHeight, qmin_eq_min, sub_pos]
  rw [numRows] at hr
  have h1 : (r : ℤ) < qceil (wall.height / panel.height) := Int.lt_toNat.mp hr
  rw [qceil_eq_ceil] at h1
  have h2 : ((r : ℤ) : ℚ) < wall.height / panel.height := Int.lt_ceil.mp h1
  have h3 : (r : ℚ) * panel.height < wall.height :=
    (lt_div_iff hph).mp (by exact_mod_cast h2)
  exact lt_min h3 (by linarith)

/-- With no exclusions, a cell of positive visible size appends exactly one
panel, whose footprint is the cell's visible footprint. -/
theorem stepCell_rects_no_excl (wall : WallConfig) (panel : PanelConfig)
    (r : ℕ) (y x : ℚ) (st : EngineState)
    (hw : 0 < visibleWidth wall panel x) (hh : 0 < visibleHeight wall panel y) :
    (stepCell wall panel [] r y x st).placedPanels.map panelRect
      = st.placedPanels.map panelRect ++ [cellRect wall panel y x] := by
  have hcond : containedSome wall panel [] y x = false := rfl
  rw [stepCell_eq, if_pos ⟨hcond, hw, hh⟩]
  cases hr : removeFirstFit (visibleWidth wall panel x) (visibleHeight wall panel y)
      st.offcuts with
  | some rest => simp [panelRect, cellPanel, cellRect]
  | none => simp [panelRect, cellPanel, cellRect]

/-- With no exclusions, a whole inner loop appends exactly the visible
footprints of its cells, in order. -/
theorem foldl_rects_no_excl (wall : WallConfig) (panel : PanelConfig)
    (r : ℕ) (y : ℚ) (xs : List ℚ)
    (hh : 0 < visibleHeight wall panel y)
    (hxs : ∀ x ∈ xs, 0 < visibleWidth wall panel x) :
    ∀ st : EngineState,
      ((xs.foldl (fun s x => stepCell wall panel [] r y x s) st).placedPanels.map
        panelRect)
      = st.placedPanels.map panelRect ++ xs.map (cellRect wall panel y) := by
  induction xs with
  | nil => simp
  | cons a t ih =>
    intro st
    rw [List.foldl_cons, List.map_cons,
      ih (fun x hx => hxs x (List.mem_cons_of_mem a hx)) _,
      stepCell_rects_no_excl wall panel r y a st (hxs a (List.mem_cons_self a t)) hh]
    simp

/-- With no exclusions, one course appends exactly its row of visible
footprints. -/
theorem stepRow_rects (wall : WallConfig) (panel : PanelConfig) (r : ℕ)
    (hW : 0 < wall.width) (hpw : 0 < panel.width) (hph : 0 < panel.height)
    (hr : r < numRows wall panel) (st : EngineState) :
    (stepRow wall panel [] r st).placedPanels.map panelRect
      = st.placedPanels.map panelRect
        ++ (cellXs wall panel (rowX0 panel r)).map
            (cellRect wall panel ((r : ℚ) * panel.height)) := by
  rw [stepRow]
  apply foldl_rects_no_excl
  · exact visibleHeight_pos_of_row wall panel r hph hr
  · intro x hx
    obtain ⟨h1, h2⟩ := mem_cellXs wall panel _ x hpw hx
    exact visibleWidth_pos_of_cell wall panel x hW hpw
      (le_trans (rowX0_bounds panel r hpw).1 h1) h2

/-- With no exclusions, the final placed list's footprints are exactly the
row-major concatenation of all visible cell footprints. -/
theorem finalState_rects (wall : WallConfig) (panel : PanelConfig)
    (hW : 0 < wall.width) (hpw : 0 < panel.width) (hph : 0 < panel.height) :
    (finalState wall panel []).placedPanels.map panelRect
      = ((List.range (numRows wall panel)).map fun r =>
          (cellXs wall panel (rowX0 panel r)).map
            (cellRect wall panel ((r : ℚ) * panel.height))).join := by
  rw [finalState]
  suffices h : ∀ n, n ≤ numRows wall panel → ∀ st : EngineState,
      (((List.range n).foldl (fun st r => stepRow wall panel [] r st) st).placedPanels.map
        panelRect)
      = st.placedPanels.map panelRect
        ++ ((List.range n).map fun r =>
            (cellXs wall panel (rowX0 panel r)).map
              (cellRect wall panel ((r : ℚ) * panel.height))).join by
    simpa using h (numRows wall panel) le_rfl ⟨[], [], 0⟩
  intro n
  induction n with
  | zero => simp
  | succ n ih =>
    intro hn st
    rw [List.range_succ, List.foldl_append, List.foldl_cons, List.foldl_nil,
      stepRow_rects wall panel n hW hpw hph (by omega) _,
      ih (by omega) st]
    simp

/-- Every non-negative coordinate lies in exactly one band of width `u`:
the band of index `⌊c/u⌋`. -/
theorem exists_band_index (c u : ℚ) (hu : 0 < u) (hc : 0 ≤ c) :
    ∃ n : ℕ, (n : ℚ) * u ≤ c ∧ c < ((n : ℚ) + 1) * u := by
  have hm0 : 0 ≤ ⌊c / u⌋ := Int.floor_nonneg.mpr (div_nonneg hc hu.le)
  have hcast : (((⌊c / u⌋).toNat : ℕ) : ℚ) = ((⌊c / u⌋ : ℤ) : ℚ) := by
    exact_mod_cast Int.toNat_of_nonneg hm0
  refine ⟨(⌊c / u⌋).toNat, ?_, ?_⟩
  · rw [hcast]
    exact (le_div_iff hu).mp (Int.floor_le _)
  · rw [hcast]
    exact (div_lt_iff hu).mp (Int.lt_floor_add_one _)

/-- A course whose base is below the wall top is among the processed rows. -/
theorem lt_numRows_of (wall : WallConfig) (panel : PanelConfig)
    (hph : 0 < panel.height) (r : ℕ)
    (hb : (r : ℚ) * panel.height < wall.height) :
    r < numRows wall panel := by
  rw [numRows]
  apply Int.lt_toNat.mpr
  rw [qceil_eq_ceil]
  apply Int.lt_ceil.mpr
  show ((r : ℤ) : ℚ) < wall.height / panel.height
  rw [lt_div_iff hph]
  exact_mod_cast hb

/-- A column whose nominal left edge is left of the wall's right edge is
among the visited columns. -/
theorem lt_numColsFrom_of (wall : WallConfig) (panel : PanelConfig) (x0 : ℚ)
    (hpw : 0 < panel.width) (k : ℕ)
    (hk : x0 + (k : ℚ) * panel.width < wall.width) :
    k < numColsFrom wall panel x0 := by
  rw [numColsFrom, if_pos hpw]
  apply Int.lt_toNat.mpr
  rw [qceil_eq_ceil]
  apply Int.lt_ceil.mpr
  show ((k : ℤ) : ℚ) < (wall.width - x0) / panel.width
  rw [lt_div_iff hpw]
  push_cast
  linarith

/-- Every point of the wall is covered by the visible footprint of some
visited cell. -/
theorem cover_exists_rect (wall : WallConfig) (panel : PanelConfig)
    (hW : 0 < wall.width) (hH : 0 < wall.height)
    (hpw : 0 < panel.width) (hph : 0 < panel.height) (a b : ℚ)
    (ha0 : 0 ≤ a) (haW : a < wall.width) (hb0 : 0 ≤ b) (hbH : b < wall.height) :
    ∃ q ∈ ((List.range (numRows wall panel)).map fun r =>
        (cellXs wall panel (rowX0 panel r)).map
          (cellRect wall panel ((r : ℚ) * panel.height))).join,
      rectCovers q a b := by
  obtain ⟨r, hr1, hr2⟩ := exists_band_index b panel.height hph hb0
  have hr2' : b < (r : ℚ) * panel.height + panel.height := by
    have : ((r : ℚ) + 1) * panel.height
        = (r : ℚ) * panel.height + panel.height := by ring
    linarith [this ▸ hr2]
  have hrN : r < numRows wall panel :=
    lt_numRows_of wall panel hph r (lt_of_le_of_lt hr1 hbH)
  have hx0le : rowX0 panel r ≤ 0 := (rowX0_bounds panel r hpw).2
  obtain ⟨k, hk1, hk2⟩ := exists_band_index (a - rowX0 panel r) panel.width hpw
    (by linarith)
  have hk2' : a < rowX0 panel r + (k : ℚ) * panel.width + panel.width := by
    have : ((k : ℚ) + 1) * panel.width
        = (k : ℚ) * panel.width + panel.width := by ring
    linarith [this ▸ hk2]
  have hxa : rowX0 panel r + (k : ℚ) * panel.width ≤ a := by linarith
  have hkN : k < numColsFrom wall panel (rowX0 panel r) :=
    lt_numColsFrom_of wall panel (rowX0 panel r) hpw k (by linarith)
  refine ⟨cellRect wall panel ((r : ℚ) * panel.height)
      (rowX0 panel r + (k : ℚ) * panel.width), ?_, ?_⟩
  · apply List.mem_join.mpr
    refine ⟨(cellXs wall panel (rowX0 panel r)).map
        (cellRect wall panel ((r : ℚ) * panel.height)), ?_, ?_⟩
    · exact List.mem_map.mpr ⟨r, List.mem_range.mpr hrN, rfl⟩
    · refine List.mem_map.mpr ⟨rowX0 panel r + (k : ℚ) * panel.width, ?_, rfl⟩
      rw [cellXs]
      exact List.mem_map.mpr ⟨k, List.mem_range.mpr hkN, rfl⟩
  · refine ⟨?_, ?_, hr1, ?_⟩
    · show qmax 0 (rowX0 panel r + (k : ℚ) * panel.width) ≤ a
      rw [qmax_eq_max]
      exact max_le ha0 hxa
    · show a < qmax 0 (rowX0 panel r + (k : ℚ) * panel.width)
          + visibleWidth wall panel (rowX0 panel r + (k : ℚ) * panel.width)
      have e1 : qmax 0 (rowX0 panel r + (k : ℚ) * panel.width)
          + visibleWidth wall panel (rowX0 panel r + (k : ℚ) * panel.width)
          = qmin wall.width (rowX0 panel r + (k : ℚ) * panel.width + panel.width) := by
        rw [visibleWidth]
        ring
      rw [e1, qmin_eq_min]
      exact lt_min haW hk2'
    · show b < (r : ℚ) * panel.height
          + visibleHeight wall panel ((r : ℚ) * panel.height)
      have e1 : (r : ℚ) * panel.height
          + visibleHeight wall panel ((r : ℚ) * panel.height)
          = qmin wall.height ((r : ℚ) * panel.height + panel.height) := by
        rw [visibleHeight]
        ring
      rw [e1, qmin_eq_min]
      exact lt_min hbH hr2'

/-- Two footprints share no point. -/
def rectsDisjoint (q q' : ℚ × ℚ × ℚ × ℚ) : Prop :=
  ∀ a b : ℚ, ¬(rectCovers q a b ∧ rectCovers q' a b)

/-- Two cells of the same course whose nominal spans do not overlap have
disjoint visible footprints. -/
theorem cellRect_disjoint_horiz (wall : WallConfig) (panel : PanelConfig)
    (y x x' : ℚ) (hle : x + panel.width ≤ x') :
    rectsDisjoint (cellRect wall panel y x) (cellRect wall panel y x') := by
  intro a b hcc
  simp only [rectCovers, cellRect] at hcc
  obtain ⟨⟨h1, h2, h3, h4⟩, ⟨h5, h6, h7, h8⟩⟩ := hcc
  have e1 : qmax 0 x + visibleWidth wall panel x
      = qmin wall.width (x + panel.width) := by
    rw [visibleWidth]
    ring
  rw [e1, qmin_eq_min] at h2
  have e2 : x' ≤ qmax 0 x' := by
    rw [qmax_eq_max]
    exact le_max_right _ _
  have e3 := min_le_right wall.width (x + panel.width)
  linarith

/-- Cells of two different courses (lower course entirely below the upper
one) have disjoint visible footprints. -/
theorem cellRect_disjoint_vert (wall : WallConfig) (panel : PanelConfig)
    (y y' x x' : ℚ) (hle : y + panel.height ≤ y') :
    rectsDisjoint (cellRect wall panel y x) (cellRect wall panel y' x') := by
  intro a b hcc
  simp only [rectCovers, cellRect] at hcc
  obtain ⟨⟨h1, h2, h3, h4⟩, ⟨h5, h6, h7, h8⟩⟩ := hcc
  have e1 : y + visibleHeight wall panel y
      = qmin wall.height (y + panel.height) := by
    rw [visibleHeight]
    ring
  rw [e1, qmin_eq_min] at h4
  have e3 := min_le_right wall.height (y + panel.height)
  linarith

/-- The visible footprints of all visited cells, in row-major order, are
pairwise disjoint. -/
theorem rects_pairwise (wall : WallConfig) (panel : PanelConfig)
    (hpw : 0 < panel.width) (hph : 0 < panel.height) :
    (((List.range (numRows wall panel)).map fun r =>
        (cellXs wall panel (rowX0 panel r)).map
          (cellRect wall panel ((r : ℚ) * panel.height))).join).Pairwise
      rectsDisjoint := by
  rw [List.pairwise_join]
  constructor
  · intro l hl
    obtain ⟨r, hr, rfl⟩ := List.mem_map.mp hl
    rw [List.pairwise_map, cellXs, List.pairwise_map]
    refine (List.pairwise_lt_range _).imp ?_
    intro k k' hkk
    apply cellRect_disjoint_horiz
    have hcast : (k : ℚ) + 1 ≤ (k' : ℚ) := by exact_mod_cast hkk
    have hmul : ((k : ℚ) + 1) * panel.width ≤ (k' : ℚ) * panel.width :=
      mul_le_mul_of_nonneg_right hcast hpw.le
    have hexp : ((k : ℚ) + 1) * panel.width
        = (k : ℚ) * panel.width + panel.width := by ring
    linarith
  · rw [List.pairwise_map]
    refine (List.pairwise_lt_range _).imp ?_
    intro r r' hrr q hq q' hq'
    obtain ⟨x, hx, rfl⟩ := List.mem_map.mp hq
    obtain ⟨x', hx', rfl⟩ := List.mem_map.mp hq'
    apply cellRect_disjoint_vert
    have hcast : (r : ℚ) + 1 ≤ (r' : ℚ) := by exact_mod_cast hrr
    have hmul : ((r : ℚ) + 1) * panel.height ≤ (r' : ℚ) * panel.height :=
      mul_le_mul_of_nonneg_right hcast hph.le
    have hexp : ((r : ℚ) + 1) * panel.height
        = (r : ℚ) * panel.height + panel.height := by ring
    linarith

/-- C1: with positive dimensions and no exclusions,
`theoreticalPanels = ⌈(wall.width*wall.height)/(panel.width*panel.height)⌉`,
and the placed panels tile the wall exactly: every point of
`[0, wall.width) × [0, wall.height)` is covered by a placed panel and the
placed footprints are pairwise non-overlapping (no gaps, no overlaps). -/
theorem C1_exact_cover (wall : WallConfig) (panel : PanelConfig)
    (hW : 0 < wall.width) (hH : 0 < wall.height)
    (hpw : 0 < panel.width) (hph : 0 < panel.height) :
    (calculateStyropor wall panel []).theoreticalPanels
      = ⌈wall.width * wall.height / (panel.width * panel.height)⌉ ∧
    (∀ a b : ℚ, 0 ≤ a → a < wall.width → 0 ≤ b → b < wall.height →
      ∃ p ∈ (calculateStyropor wall panel []).placedPanels, coversPoint p a b) ∧
    (calculateStyropor wall panel []).placedPanels.Pairwise
      (fun p q => ∀ a b : ℚ, ¬(coversPoint p a b ∧ coversPoint q a b)) := by
  have hrects := finalState_rects wall panel hW hpw hph
  refine ⟨?_, ?_, ?_⟩
  · show qceil ((wall.width * wall.height - exclusionAreaSum [])
        / (panel.width * panel.height)) = _
    rw [qceil_eq_ceil]
    norm_num [exclusionAreaSum]
  · intro a b ha0 haW hb0 hbH
    obtain ⟨q, hqmem, hqcov⟩ :=
      cover_exists_rect wall panel hW hH hpw hph a b ha0 haW hb0 hbH
    rw [← hrects] at hqmem
    obtain ⟨p, hp, hpq⟩ := List.mem_map.mp hqmem
    refine ⟨p, hp, ?_⟩
    rw [coversPoint_iff_rect, hpq]
    exact hqcov
  · have h := rects_pairwise wall panel hpw hph
    rw [← hrects, List.pairwise_map] at h
    exact h.imp (fun hd => hd)

/-- C1 witness: the exact-cover property at wall 100×100, panel 100×50. -/
theorem C1_exact_cover_witness :
    0 < (100 : ℚ) ∧ 0 < (50 : ℚ) ∧
    ((calculateStyropor ⟨100, 100⟩ ⟨100, 50⟩ []).theoreticalPanels
        = ⌈(100 : ℚ) * 100 / (100 * 50)⌉ ∧
      (∀ a b : ℚ, 0 ≤ a → a < 100 → 0 ≤ b → b < 100 →
        ∃ p ∈ (calculateStyropor ⟨100, 100⟩ ⟨100, 50⟩ []).placedPanels,
          coversPoint p a b) ∧
      (calculateStyropor ⟨100, 100⟩ ⟨100, 50⟩ []).placedPanels.Pairwise
        (fun p q => ∀ a b : ℚ, ¬(coversPoint p a b ∧ coversPoint q a b))) :=
  ⟨by norm_num, by norm_num,
    C1_exact_cover ⟨100, 100⟩ ⟨100, 50⟩ (by norm_num) (by norm_num)
      (by norm_num) (by norm_num)⟩

end Styropor
